import Mathlib

/-!
Verification of the paperclip peer-to-peer clipboard daemon.

Shallow embedding conventions:
* Go `[]byte` is modelled as `List Nat` with every element `< 256`.
* Go `string` is modelled as `List Char`.
* Go `time.Time` / `time.Duration` are modelled as `Int` nanoseconds where
  durations matter (dedup cache, backoff); the trust store's wall-clock
  timestamps are modelled at one-second granularity as a civil date-time
  record, which is exactly what the RFC3339 serialization carries.
-/

set_option maxRecDepth 100000

namespace Paperclip

/-! ## Constants from peer/node.go -/

def maxMessageSize : Nat := 10 * 1024 * 1024

def headerSize : Nat := 5

/-- 30 s in nanoseconds (`maxBackoff` in peer/node.go). -/
def maxBackoff : Nat := 30000000000

/-- 1 s in nanoseconds (`initialBackoff` in peer/node.go). -/
def initialBackoff : Nat := 1000000000

/-- 5 s in nanoseconds, the dedup-cache recency window. -/
def fiveSeconds : Int := 5000000000

/-- 30 s in nanoseconds, the dedup-cache sweep threshold. -/
def thirtySeconds : Int := 30000000000

/-! ## Hex rendering -/

/-- Lowercase hexadecimal digit, as produced by Go's `fmt` and `encoding/hex`. -/
def hexDigit (n : Nat) : Char :=
  if n < 10 then Char.ofNat (48 + n) else Char.ofNat (97 + n - 10)

/-- Big-endian fixed-width hex rendering of `n` using `w` nibbles.
For `n < 16^w` this is Go's `fmt.Sprintf` with a zero-padded width-`w`
lowercase hex verb. -/
def toHexFixed (w : Nat) (n : Nat) : List Char :=
  (List.range w).reverse.map (fun i => hexDigit ((n >>> (4 * i)) % 16))

/-- Go `encoding/hex.EncodeToString`: two lowercase hex digits per byte. -/
def hexEncode (bs : List Nat) : List Char :=
  bs.flatMap (fun b => [hexDigit (b / 16), hexDigit (b % 16)])

/-! ## hashContent (peer/node.go:638-644)

```go
func hashContent(data []byte) string {
    var h uint64
    for _, b := range data {
        h = h*31 + uint64(b)
    }
    return fmt.Sprintf("%016x", h)
}
```
-/

def hashContentAcc (acc : Nat) : List Nat → Nat
  | [] => acc
  | b :: rest => hashContentAcc ((acc * 31 + b) % 18446744073709551616) rest

/-- The receive-path digest of peer/node.go: a 64-bit multiply-by-31 rolling
hash rendered as exactly 16 lowercase hex digits. -/
def hashContent (data : List Nat) : List Char :=
  toHexFixed 16 (hashContentAcc 0 data)

/-! ## SHA-256 (Go `crypto/sha256`, used by clipboard.go's `hashData`)

A direct executable embedding of FIPS 180-4 SHA-256 over `Nat` with explicit
`% 2^32` truncation.  Words are held in an 8-tuple so the 32-byte output
length is structural.
-/

def w32 (n : Nat) : Nat := n % 4294967296

def rotr32 (s n : Nat) : Nat := w32 ((n >>> s) ||| (n <<< (32 - s)))

def shaCh (x y z : Nat) : Nat := (x &&& y) ^^^ ((x ^^^ 4294967295) &&& z)

def shaMaj (x y z : Nat) : Nat := (x &&& y) ^^^ (x &&& z) ^^^ (y &&& z)

def sumBig0 (x : Nat) : Nat := rotr32 2 x ^^^ rotr32 13 x ^^^ rotr32 22 x

def sumBig1 (x : Nat) : Nat := rotr32 6 x ^^^ rotr32 11 x ^^^ rotr32 25 x

def sumSmall0 (x : Nat) : Nat := rotr32 7 x ^^^ rotr32 18 x ^^^ (x >>> 3)

def sumSmall1 (x : Nat) : Nat := rotr32 17 x ^^^ rotr32 19 x ^^^ (x >>> 10)

/-- The 64 FIPS 180-4 round constants (decimal rendering). -/
def shaK : List Nat :=
  [1116352408, 1899447441, 3049323471, 3921009573, 961987163,
   1508970993, 2453635748, 2870763221, 3624381080, 310598401,
   607225278, 1426881987, 1925078388, 2162078206, 2614888103,
   3248222580, 3835390401, 4022224774, 264347078, 604807628,
   770255983, 1249150122, 1555081692, 1996064986, 2554220882,
   2821834349, 2952996808, 3210313671, 3336571891, 3584528711,
   113926993, 338241895, 666307205, 773529912, 1294757372,
   1396182291, 1695183700, 1986661051, 2177026350, 2456956037,
   2730485921, 2820302411, 3259730800, 3345764771, 3516065817,
   3600352804, 4094571909, 275423344, 430227734, 506948616,
   659060556, 883997877, 958139571, 1322822218, 1537002063,
   1747873779, 1955562222, 2024104815, 2227730452, 2361852424,
   2428436474, 2756734187, 3204031479, 3329325298]

/-- Big-endian bytes of a 32-bit word (`byte(v >> s)` is `v / 2^s % 256`). -/
def be32bytes (n : Nat) : List Nat :=
  [n / 16777216 % 256, n / 65536 % 256, n / 256 % 256, n % 256]

/-- Big-endian bytes of a 64-bit word. -/
def be64bytes (n : Nat) : List Nat :=
  [n / 72057594037927936 % 256, n / 281474976710656 % 256,
   n / 1099511627776 % 256, n / 4294967296 % 256,
   n / 16777216 % 256, n / 65536 % 256, n / 256 % 256, n % 256]

/-- SHA-256 padding: append 0x80, zeros to 56 mod 64, then the bit length. -/
def shaPad (m : List Nat) : List Nat :=
  let L := m.length
  let k := (119 - L % 64) % 64
  m ++ 128 :: List.replicate k 0 ++ be64bytes (8 * L)

def chunks64Aux : Nat → List Nat → List (List Nat)
  | 0, _ => []
  | _, [] => []
  | fuel + 1, l => l.take 64 :: chunks64Aux fuel (l.drop 64)

def chunks64 (l : List Nat) : List (List Nat) := chunks64Aux l.length l

/-- The `i`-th big-endian 32-bit word of a 64-byte block. -/
def blockWord (block : List Nat) (i : Nat) : Nat :=
  block.getD (4 * i) 0 <<< 24 ||| block.getD (4 * i + 1) 0 <<< 16 |||
  block.getD (4 * i + 2) 0 <<< 8 ||| block.getD (4 * i + 3) 0

def scheduleStep (ws : List Nat) : List Nat :=
  ws ++ [w32 (sumSmall1 (ws.getD (ws.length - 2) 0) + ws.getD (ws.length - 7) 0 +
              sumSmall0 (ws.getD (ws.length - 15) 0) + ws.getD (ws.length - 16) 0)]

/-- The 64-word message schedule of one block. -/
def schedule (block : List Nat) : List Nat :=
  (List.range 48).foldl (fun ws _ => scheduleStep ws)
    ((List.range 16).map (blockWord block))

/-- SHA-256 working state: eight 32-bit words. -/
structure Sha256State where
  a : Nat
  b : Nat
  c : Nat
  d : Nat
  e : Nat
  f : Nat
  g : Nat
  h : Nat
deriving DecidableEq

/-- The eight FIPS 180-4 initial hash words (decimal rendering). -/
def shaInit : Sha256State :=
  ⟨1779033703, 3144134277, 1013904242, 2773480762,
   1359893119, 2600822924, 528734635, 1541459225⟩

def shaRound (st : Sha256State) (wk : Nat × Nat) : Sha256State :=
  let t1 := w32 (st.h + sumBig1 st.e + shaCh st.e st.f st.g + wk.2 + wk.1)
  let t2 := w32 (sumBig0 st.a + shaMaj st.a st.b st.c)
  ⟨w32 (t1 + t2), st.a, st.b, st.c, w32 (st.d + t1), st.e, st.f, st.g⟩

def shaCompress (H : Sha256State) (block : List Nat) : Sha256State :=
  let st := ((schedule block).zip shaK).foldl shaRound H
  ⟨w32 (H.a + st.a), w32 (H.b + st.b), w32 (H.c + st.c), w32 (H.d + st.d),
   w32 (H.e + st.e), w32 (H.f + st.f), w32 (H.g + st.g), w32 (H.h + st.h)⟩

def shaBytes (H : Sha256State) : List Nat :=
  be32bytes H.a ++ be32bytes H.b ++ be32bytes H.c ++ be32bytes H.d ++
  be32bytes H.e ++ be32bytes H.f ++ be32bytes H.g ++ be32bytes H.h

/-- SHA-256 digest (32 bytes) of a byte string. -/
def sha256 (m : List Nat) : List Nat :=
  shaBytes ((chunks64 (shaPad m)).foldl shaCompress shaInit)

/-- `hashData` from clipboard/clipboard.go: lowercase hex of the SHA-256
digest of the bytes. -/
def hashData (data : List Nat) : List Char :=
  hexEncode (sha256 data)

example : hashData [] =
    "e3b0c44298fc1c149afbf4c8996fb92427ae41e4649b934ca495991b7852b855".data := by
  decide

example : hashData [104, 101, 108, 108, 111] =
    "2cf24dba5fb0a30e26e83b2ac5b9e29e1b161e5c1fa7425e73043362938b9824".data := by
  decide

example : hashContent [104, 101, 108, 108, 111] = "0000000005e918d2".data := by
  decide

/-! ## Digest shape lemmas -/

theorem toHexFixed_length (w n : Nat) : (toHexFixed w n).length = w := by
  simp [toHexFixed]

theorem hashContent_length (data : List Nat) : (hashContent data).length = 16 := by
  simp [hashContent, toHexFixed_length]

theorem hexEncode_length (bs : List Nat) : (hexEncode bs).length = 2 * bs.length := by
  induction bs with
  | nil => rfl
  | cons b rest ih => simp [hexEncode, List.flatMap_cons] at ih ⊢; omega

theorem sha256_length (m : List Nat) : (sha256 m).length = 32 := by
  simp [sha256, shaBytes, be32bytes]

theorem hashData_length (data : List Nat) : (hashData data).length = 64 := by
  simp [hashData, hexEncode_length, sha256_length]

/-- Claim C2: the receive-path digest (`hashContent` in peer/node.go, computed
at node.go:491 and stored in the dedup cache) is NOT the SHA-256 hex digest
used by the clipboard adapter (`hashData` in clipboard/clipboard.go): the
former is a 16-hex-digit 64-bit rolling hash, the latter a 64-hex-digit
SHA-256 digest, so the two digest functions disagree on every byte string. -/
theorem receive_digest_never_matches_adapter_digest (data : List Nat) :
    (hashContent data).length = 16 ∧ (hashData data).length = 64 ∧
    hashContent data ≠ hashData data := by
  refine ⟨hashContent_length data, hashData_length data, fun he => ?_⟩
  have h1 := congrArg List.length he
  rw [hashContent_length, hashData_length] at h1
  exact absurd h1 (by norm_num)

/-! ## Dedup cache (peer/node.go:600-636)

`seenHashes : map[string]time.Time` is modelled as an association list from
digest string to last-seen time in nanoseconds; Go map assignment is
insert-with-overwrite, and the sweeper's delete loop is a filter.
-/

def lookupSeen : List (List Char × Int) → List Char → Option Int
  | [], _ => none
  | (k, t) :: rest, h => if k = h then some t else lookupSeen rest h

/-- `isSeenRecently` (node.go:600-607): entry exists and `time.Since(t)` is
strictly below five seconds. -/
def isSeenRecently (seen : List (List Char × Int)) (now : Int) (hash : List Char) : Bool :=
  match lookupSeen seen hash with
  | some t => decide (now - t < fiveSeconds)
  | none => false

/-- `markSeen` (node.go:609-613): `n.seenHashes[hash] = time.Now()`. -/
def markSeen (seen : List (List Char × Int)) (now : Int) (hash : List Char) :
    List (List Char × Int) :=
  (hash, now) :: seen.filter (fun e => e.1 != hash)

/-- One pass of `cleanupSeenHashes` (node.go:615-636): delete every entry
with `now.Sub(t) > 30*time.Second`. -/
def sweepSeen (now : Int) (seen : List (List Char × Int)) : List (List Char × Int) :=
  seen.filter (fun e => !(decide (now - e.2 > thirtySeconds)))

theorem lookupSeen_filter_ne (seen : List (List Char × Int)) (h h' : List Char)
    (hne : h' ≠ h) :
    lookupSeen (seen.filter (fun e => e.1 != h)) h' = lookupSeen seen h' := by
  induction seen with
  | nil => rfl
  | cons e rest ih =>
    obtain ⟨k, t⟩ := e
    by_cases hk : k = h
    · have hne2 : h ≠ h' := fun hh => hne hh.symm
      simp [List.filter_cons, hk, lookupSeen, hne2, ih]
    · simp [List.filter_cons, hk, lookupSeen, ih]

/-- Claim C4 (amended): `markSeen` records the current time; `isSeenRecently`
returns true iff an entry exists whose age is strictly less than five seconds
(an entry aged exactly five seconds is NOT seen); one sweeper pass keeps
exactly the entries whose age does not exceed thirty seconds. -/
theorem dedup_cache_spec (seen : List (List Char × Int)) (now : Int)
    (h h' : List Char) (t' : Int) :
    (isSeenRecently seen now h = true ↔
      ∃ t, lookupSeen seen h = some t ∧ now - t < fiveSeconds)
    ∧ lookupSeen (markSeen seen now h) h' =
        (if h' = h then some now else lookupSeen seen h')
    ∧ ((h', t') ∈ sweepSeen now seen ↔ (h', t') ∈ seen ∧ ¬(now - t' > thirtySeconds)) := by
  refine ⟨?_, ?_, ?_⟩
  · unfold isSeenRecently
    cases hl : lookupSeen seen h with
    | none => simp [hl]
    | some t => simp [hl]
  · by_cases he : h' = h
    · subst he
      simp [markSeen, lookupSeen]
    · have : h ≠ h' := fun hh => he hh.symm
      simp only [markSeen, lookupSeen, if_neg this, if_neg he,
        lookupSeen_filter_ne seen h h' he]
  · simp [sweepSeen, List.mem_filter]

/-- Claim C4 counterexample: an entry aged exactly five seconds.  The claim
says `is_seen_recent` must return true (age at most five seconds, including
exactly five); the code returns false because node.go:604 uses a strict
comparison. -/
theorem dedup_cache_boundary_counterexample :
    (∃ t, lookupSeen [("d".data, 0)] "d".data = some t ∧
      fiveSeconds - t ≤ fiveSeconds)
    ∧ isSeenRecently [("d".data, 0)] fiveSeconds "d".data = false :=
  ⟨⟨0, by decide, by norm_num⟩, by decide⟩

/-! ## Echo-suppression data flow (readLoop + pollClipboard)

`SyncState` is the per-node state relevant to echo suppression: the dedup
cache, the clipboard adapter's `lastHash`, and the adapter's current
clipboard bytes.
-/

structure SyncState where
  seen : List (List Char × Int)
  lastHash : List Char
  clip : List Nat
deriving DecidableEq

/-- `readLoop`'s per-frame delivery (node.go:488-507): compute the weak
digest `hashContent data`, drop the frame if it was seen recently, otherwise
mark it seen and write to the clipboard adapter; `Clipboard.Write`
(clipboard.go:71-87) stores the content's hash as the adapter's `lastHash`.
Returns the new state and whether the adapter was written. -/
def readDeliver (st : SyncState) (now : Int) (data : List Nat) : SyncState × Bool :=
  let h := hashContent data
  if isSeenRecently st.seen now h then (st, false)
  else (⟨markSeen st.seen now h, h, data⟩, true)

/-- One poller tick (node.go:529-556): `Clipboard.Read`
(clipboard.go:41-68) returns the adapter bytes hashed with SHA-256
(`hashData`); skip when the digest equals the adapter's `lastHash`; if the
digest is seen recently, record it as `lastHash` and do not broadcast;
otherwise mark it, record it, and broadcast.  Returns the new state and the
broadcast payload, if any. -/
def pollTick (st : SyncState) (now : Int) : SyncState × Option (List Nat) :=
  let h := hashData st.clip
  if h = st.lastHash then (st, none)
  else if isSeenRecently st.seen now h then ({ st with lastHash := h }, none)
  else ({ st with seen := markSeen st.seen now h, lastHash := h }, some st.clip)

def helloBytes : List Nat := [104, 101, 108, 108, 111]

/-- Claim C1: echo suppression fails.  A node delivers the payload "hello"
at time 0 (marking its weak digest seen and writing the adapter); a poller
tick 3 seconds later (well within the 5-second window) reads back exactly
those bytes, but hashes them with SHA-256 — a digest that can never be in
the dedup cache, which holds the 16-character weak digest.  The tick
therefore broadcasts the received payload instead of suppressing it. -/
theorem echo_suppression_fails :
    (readDeliver ⟨[], [], []⟩ 0 helloBytes).2 = true ∧
    (readDeliver ⟨[], [], []⟩ 0 helloBytes).1.clip = helloBytes ∧
    (3000000000 : Int) - 0 < fiveSeconds ∧
    (pollTick (readDeliver ⟨[], [], []⟩ 0 helloBytes).1 3000000000).2 =
      some helloBytes := by
  have hne : hashData helloBytes ≠ hashContent helloBytes := by
    intro he
    have h1 := congrArg List.length he
    rw [hashContent_length, hashData_length] at h1
    exact absurd h1 (by norm_num)
  have hstep : readDeliver ⟨[], [], []⟩ 0 helloBytes =
      (⟨[(hashContent helloBytes, 0)], hashContent helloBytes, helloBytes⟩, true) := by
    simp [readDeliver, isSeenRecently, lookupSeen, markSeen]
  have hne' : hashContent helloBytes ≠ hashData helloBytes := fun hh => hne hh.symm
  refine ⟨by rw [hstep], by rw [hstep], by norm_num [fiveSeconds], ?_⟩
  rw [hstep]
  simp [pollTick, isSeenRecently, lookupSeen, hne, hne']

/-! ## Frame codec (peer/node.go readLoop:462-492, broadcast:560-564)

`binary.BigEndian.Uint32` over four bytes; Go's shift-and-or over `uint8`
values below 256 coincides with this arithmetic form.
-/

def be32of (b1 b2 b3 b4 : Nat) : Nat :=
  b1 * 16777216 + b2 * 65536 + b3 * 256 + b4

inductive ReadStep where
  /-- `io.ReadFull` on the 5-byte header fails: the reader returns. -/
  | headerShort : ReadStep
  /-- declared length over the limit (node.go:476-479): the reader returns
  before reading any payload byte. -/
  | tooLarge (declared : Nat) : ReadStep
  /-- `io.ReadFull` on the payload fails: the reader returns. -/
  | payloadShort : ReadStep
  /-- a complete frame followed by the unconsumed input. -/
  | frame (kind : Nat) (data : List Nat) (rest : List Nat) : ReadStep
deriving DecidableEq

/-- One frame-parsing pass of `readLoop` over buffered input bytes. -/
def readFrameStep (input : List Nat) : ReadStep :=
  if input.length < headerSize then .headerShort
  else
    let len := be32of (input.getD 1 0) (input.getD 2 0) (input.getD 3 0) (input.getD 4 0)
    if len > maxMessageSize then .tooLarge len
    else
      let rest := input.drop headerSize
      if rest.length < len then .payloadShort
      else .frame (input.getD 0 0) (rest.take len) (rest.drop len)

/-- One full `readLoop` iteration: parse a frame; any parse failure makes the
reader return (connection closed) with the node state untouched; a complete
frame runs the delivery logic of node.go:488-507. -/
def readLoopStep (st : SyncState) (now : Int) (input : List Nat) :
    SyncState × Bool × List Nat :=
  match readFrameStep input with
  | .frame _ data rest => ((readDeliver st now data).1, true, rest)
  | _ => (st, false, input)

theorem readFrameStep_cons (k b1 b2 b3 b4 : Nat) (tail : List Nat) :
    readFrameStep (k :: b1 :: b2 :: b3 :: b4 :: tail) =
      (if be32of b1 b2 b3 b4 > maxMessageSize then .tooLarge (be32of b1 b2 b3 b4)
       else if tail.length < be32of b1 b2 b3 b4 then .payloadShort
       else .frame k (tail.take (be32of b1 b2 b3 b4)) (tail.drop (be32of b1 b2 b3 b4))) := by
  have hlen : ¬ ((k :: b1 :: b2 :: b3 :: b4 :: tail).length < headerSize) := by
    simp [headerSize]
  simp [readFrameStep, hlen, headerSize]

/-- Claim C3 (confirmed): a received frame whose declared length exceeds
10 MiB terminates the connection before any payload byte is consumed — the
step result does not depend on the bytes after the header — and leaves the
node state (hence the clipboard adapter) untouched; a frame declaring
exactly 10 MiB is accepted. -/
theorem oversize_frame_rejected (st : SyncState) (now : Int)
    (k b1 b2 b3 b4 : Nat) (payload : List Nat) :
    (be32of b1 b2 b3 b4 > maxMessageSize →
      readFrameStep (k :: b1 :: b2 :: b3 :: b4 :: payload) =
        .tooLarge (be32of b1 b2 b3 b4)
      ∧ readLoopStep st now (k :: b1 :: b2 :: b3 :: b4 :: payload) =
          (st, false, k :: b1 :: b2 :: b3 :: b4 :: payload))
    ∧ (be32of b1 b2 b3 b4 = maxMessageSize →
      ∀ data rest : List Nat, data.length = maxMessageSize →
        readFrameStep (k :: b1 :: b2 :: b3 :: b4 :: (data ++ rest)) =
          .frame k data rest) := by
  constructor
  · intro hbig
    have h1 : readFrameStep (k :: b1 :: b2 :: b3 :: b4 :: payload) =
        .tooLarge (be32of b1 b2 b3 b4) := by
      rw [readFrameStep_cons, if_pos hbig]
    exact ⟨h1, by simp [readLoopStep, h1]⟩
  · intro heq data rest hdata
    rw [readFrameStep_cons, heq, if_neg (by omega)]
    have hge : ¬ ((data ++ rest).length < maxMessageSize) := by
      simp [List.length_append]; omega
    rw [if_neg hge, ← hdata, List.take_left, List.drop_left]

/-- Claim C3 witness: the oversize header `length = 10 MiB + 1`
(bytes 00 a0 00 01) is rejected with no payload present, and a frame
declaring exactly 10 MiB with a full payload is parsed. -/
theorem oversize_frame_rejected_witness :
    readFrameStep [1, 0, 160, 0, 1] = .tooLarge 10485761
    ∧ readFrameStep (2 :: 0 :: 160 :: 0 :: 0 :: (List.replicate maxMessageSize 7 ++ [9])) =
        .frame 2 (List.replicate maxMessageSize 7) [9] := by
  constructor
  · have h := ((oversize_frame_rejected ⟨[], [], []⟩ 0 1 0 160 0 1 []).1 (by decide)).1
    simpa using h
  · have h := (oversize_frame_rejected ⟨[], [], []⟩ 0 2 0 160 0 0 []).2 (by decide)
      (List.replicate maxMessageSize 7) [9] (by simp)
    exact h

/-- `broadcast`'s frame construction (node.go:560-564): one kind byte, the
payload length truncated to `uint32` in big-endian, then the payload. -/
def broadcastMsg (kind : Nat) (data : List Nat) : List Nat :=
  (kind % 256) :: be32bytes (data.length % 4294967296) ++ data

theorem be32_roundtrip (n : Nat) (h : n < 4294967296) :
    be32of (n / 16777216 % 256) (n / 65536 % 256) (n / 256 % 256) (n % 256) = n := by
  unfold be32of; omega

/-- Claim C7 (confirmed): encoding a frame as `broadcast` does and decoding
it as `readLoop` does returns exactly the original kind and payload, for
kinds 0x01/0x02 and any payload up to 10 MiB, leaving trailing input
untouched. -/
theorem frame_roundtrip (kind : Nat) (data rest : List Nat)
    (hk : kind = 1 ∨ kind = 2) (hlen : data.length ≤ maxMessageSize) :
    readFrameStep (broadcastMsg kind data ++ rest) = .frame kind data rest := by
  have hk' : kind % 256 = kind := by
    rcases hk with h | h <;> subst h <;> decide
  have hmod : data.length % 4294967296 = data.length := by
    apply Nat.mod_eq_of_lt; unfold maxMessageSize at hlen; omega
  have hbe : be32of (data.length % 4294967296 / 16777216 % 256)
      (data.length % 4294967296 / 65536 % 256) (data.length % 4294967296 / 256 % 256)
      (data.length % 4294967296 % 256) = data.length := by
    rw [hmod]
    exact be32_roundtrip data.length (by unfold maxMessageSize at hlen; omega)
  have hlist : broadcastMsg kind data ++ rest =
      kind :: (data.length % 4294967296 / 16777216 % 256) ::
      (data.length % 4294967296 / 65536 % 256) ::
      (data.length % 4294967296 / 256 % 256) ::
      (data.length % 4294967296 % 256) :: (data ++ rest) := by
    simp [broadcastMsg, be32bytes, hk']
  rw [hlist, readFrameStep_cons, hbe]
  rw [if_neg (by omega)]
  have hnl : ¬ ((data ++ rest).length < data.length) := by
    simp only [List.length_append]; omega
  rw [if_neg hnl, List.take_left, List.drop_left]

/-- Claim C7 witness: a concrete two-byte text frame round-trips. -/
theorem frame_roundtrip_witness :
    readFrameStep (broadcastMsg 1 [7, 8] ++ [9]) = .frame 1 [7, 8] [9] :=
  frame_roundtrip 1 [7, 8] [9] (Or.inl rfl) (by decide)

/-- The four length-field bytes of an encoded frame, as the reader sees them. -/
def lenFieldOf (msg : List Nat) : Nat :=
  be32of (msg.getD 1 0) (msg.getD 2 0) (msg.getD 3 0) (msg.getD 4 0)

/-- Claim C10 (confirmed): the send path has no size limit — `broadcast`
always builds a frame whose length field is `len(data) mod 2^32`, so
payloads over 10 MiB are still framed and sent (the receiver rejects them),
and for payloads of 4 GiB or more the wrapped length field no longer matches
the payload length. -/
theorem broadcast_no_send_limit (kind : Nat) (data : List Nat) :
    (broadcastMsg kind data).length = headerSize + data.length
    ∧ lenFieldOf (broadcastMsg kind data) = data.length % 4294967296
    ∧ (maxMessageSize < data.length → data.length < 4294967296 →
        readFrameStep (broadcastMsg kind data) = .tooLarge data.length)
    ∧ (4294967296 ≤ data.length → lenFieldOf (broadcastMsg kind data) ≠ data.length) := by
  have hfield : lenFieldOf (broadcastMsg kind data) = data.length % 4294967296 := by
    simp only [broadcastMsg, be32bytes, lenFieldOf, List.cons_append, List.getD_cons_succ,
      List.getD_cons_zero]
    exact be32_roundtrip (data.length % 4294967296) (Nat.mod_lt _ (by norm_num))
  refine ⟨by simp only [broadcastMsg, be32bytes, headerSize, List.length_cons,
    List.length_append, List.length_nil], hfield, ?_, ?_⟩
  · intro hbig hsmall
    have hmod : data.length % 4294967296 = data.length := Nat.mod_eq_of_lt hsmall
    simp only [broadcastMsg, be32bytes, List.cons_append]
    rw [readFrameStep_cons]
    have hbe : be32of (data.length % 4294967296 / 16777216 % 256)
        (data.length % 4294967296 / 65536 % 256) (data.length % 4294967296 / 256 % 256)
        (data.length % 4294967296 % 256) = data.length := by
      rw [hmod]; exact be32_roundtrip data.length hsmall
    rw [hbe, if_pos hbig]
  · intro hbig
    rw [hfield]
    have := Nat.mod_lt data.length (show 0 < 4294967296 by norm_num)
    omega

/-- Claim C10 witness: a 10 MiB + 1 payload is framed and rejected only by
the receiver; a 4 GiB payload's length field wraps to a non-matching value. -/
theorem broadcast_no_send_limit_witness :
    readFrameStep (broadcastMsg 1 (List.replicate (maxMessageSize + 1) 0)) =
      .tooLarge (maxMessageSize + 1)
    ∧ lenFieldOf (broadcastMsg 1 (List.replicate 4294967296 0)) ≠ 4294967296 := by
  constructor
  · have h := (broadcast_no_send_limit 1 (List.replicate (maxMessageSize + 1) 0)).2.2.1
      (by simp only [List.length_replicate]; omega)
      (by simp only [List.length_replicate, maxMessageSize]; omega)
    rwa [List.length_replicate] at h
  · have h := (broadcast_no_send_limit 1 (List.replicate 4294967296 0)).2.2.2
      (by simp only [List.length_replicate]; omega)
    rwa [List.length_replicate] at h

/-! ## Reconnection backoff (peer/node.go maintainPeerGroup:290-349)

The per-group backoff field evolves only at node.go:322 (fully-failed dial:
`backoff = min(backoff*2, maxBackoff)`) and node.go:336 (successful dial:
`backoff = initialBackoff`).  Durations are in nanoseconds.
-/

/-- One backoff update; `success` tells whether `dialAny` returned a
connection. -/
def backoffStep (b : Nat) (success : Bool) : Nat :=
  if success then initialBackoff else min (b * 2) maxBackoff

/-- The six reachable backoff durations: 1 s, 2 s, 4 s, 8 s, 16 s, 30 s. -/
def backoffValues : List Nat :=
  [1000000000, 2000000000, 4000000000, 8000000000, 16000000000, 30000000000]

theorem backoffStep_mem (b : Nat) (e : Bool) (hb : b ∈ backoffValues) :
    backoffStep b e ∈ backoffValues := by
  cases e
  · fin_cases hb <;> decide
  · simp [backoffStep, backoffValues, initialBackoff]

theorem foldl_backoff_mem (events : List Bool) :
    ∀ b, b ∈ backoffValues → List.foldl backoffStep b events ∈ backoffValues := by
  induction events with
  | nil => intro b hb; exact hb
  | cons e rest ih => intro b hb; exact ih _ (backoffStep_mem b e hb)

theorem backoff_consecutive_failures (k : Nat) :
    List.foldl backoffStep initialBackoff (List.replicate k false) =
      min (2 ^ k * initialBackoff) maxBackoff := by
  induction k with
  | zero => norm_num [initialBackoff, maxBackoff]
  | succ k ih =>
    rw [List.replicate_succ', List.foldl_append, ih]
    have hp : (2 : Nat) ^ (k + 1) * initialBackoff = 2 ^ k * initialBackoff * 2 := by ring
    simp only [List.foldl_cons, List.foldl_nil, backoffStep, if_neg (Bool.false_ne_true), hp]
    unfold initialBackoff maxBackoff
    omega

/-- Claim C6 (confirmed): starting from the initial 1 s backoff, every
sequence of dial outcomes leaves the backoff in
{1 s, 2 s, 4 s, 8 s, 16 s, 30 s}; `k` consecutive fully-failed attempts
yield `min(2^k · 1 s, 30 s)` — the sequence 1, 2, 4, 8, 16, 30, 30, … —
doubling on failure with a 30 s cap, and any success resets to 1 s. -/
theorem backoff_schedule (events : List Bool) (k b : Nat) :
    List.foldl backoffStep initialBackoff events ∈ backoffValues
    ∧ List.foldl backoffStep initialBackoff (List.replicate k false) =
        min (2 ^ k * initialBackoff) maxBackoff
    ∧ backoffStep b true = initialBackoff
    ∧ backoffStep b false = min (b * 2) maxBackoff :=
  ⟨foldl_backoff_mem events initialBackoff (by decide),
   backoff_consecutive_failures k, rfl, rfl⟩

/-! ## Dial race (peer/node.go dialAny:353-435)

`dialAny` spawns one goroutine per address.  Each goroutine dials with a
3-second timeout, then checks the cancellation channel `ctx`
(node.go:373-381): if `ctx` is already closed it closes its socket and
returns WITHOUT sending on the buffered `results` channel; otherwise it
sends exactly one result (success or failure).  The collection loop
(node.go:416-428) performs exactly `len(addrs)` receives from `results`,
and `close(ctx)` happens only when the loop receives its first successful
result.  A worker is abstracted to the two bits that determine this
protocol's outcome.
-/

structure DialAttempt where
  /-- the dial (and, for noise endpoints, handshake + trust check) produced
  a connection. -/
  succeeded : Bool
  /-- the post-dial `select` observed the closed `ctx` channel, so the
  worker returned without sending on `results`. -/
  sawCancel : Bool
deriving DecidableEq

/-- Messages ever sent on the buffered `results` channel: one per worker
that did not observe the cancellation. -/
def sentResults (as : List DialAttempt) : Nat :=
  (as.filter (fun a => !a.sawCancel)).length

/-- The collection loop performs exactly `len(addrs)` receives, so
`dialAny` returns to its caller iff every worker sent a result; if any
worker skipped its send, the loop blocks forever on `<-results`. -/
def dialAnyReturns (as : List DialAttempt) : Bool :=
  sentResults as == as.length

/-- A worker can observe the closed `ctx` only after `close(ctx)` ran,
which the collection loop does upon receiving a successful result — so some
worker must have sent a success. -/
def Realizable (as : List DialAttempt) : Prop :=
  ∀ a ∈ as, a.sawCancel = true →
    ∃ w ∈ as, w.sawCancel = false ∧ w.succeeded = true

/-- Claim C8: the dial race does NOT always terminate.  Realizable
schedule with two endpoints: the first dial succeeds and its result is
received (the winner — `close(ctx)` runs); the second dial completes
afterwards (e.g. its 3-second timeout elapses on a black-holed address),
observes the closed `ctx`, and returns without sending.  Only one result is
ever sent, but the collection loop insists on two receives, so `dialAny`
blocks forever instead of returning the winning transport — even though an
attempt completed successfully. -/
theorem dial_race_can_hang :
    Realizable [⟨true, false⟩, ⟨false, true⟩]
    ∧ (∃ a ∈ [(⟨true, false⟩ : DialAttempt), ⟨false, true⟩], a.succeeded = true)
    ∧ dialAnyReturns [⟨true, false⟩, ⟨false, true⟩] = false := by
  refine ⟨?_, ⟨⟨true, false⟩, by simp, rfl⟩, by decide⟩
  intro a _ _
  exact ⟨⟨true, false⟩, by simp, rfl, rfl⟩

/-! ## String helpers for the trust store (crypto/known_hosts.go)

Go strings are `List Char`.  `strings.Fields` splits on runs of whitespace;
the ASCII whitespace set of `unicode.IsSpace` is modelled (the store file
never contains non-ASCII whitespace).
-/

def isSpaceChar (c : Char) : Bool :=
  c == ' ' || c == '\t' || c == '\n' || c == '\x0d' ||
  c == '\x0b' || c == '\x0c'

/-- Accumulator worker for `fields`: `cur` holds the current word reversed. -/
def fieldsGo (cur : List Char) : List Char → List (List Char)
  | [] => if cur = [] then [] else [cur.reverse]
  | c :: rest =>
    if isSpaceChar c then
      if cur = [] then fieldsGo [] rest else cur.reverse :: fieldsGo [] rest
    else fieldsGo (c :: cur) rest

/-- `strings.Fields`. -/
def fields (s : List Char) : List (List Char) := fieldsGo [] s

/-- `strings.Join` with a one-character separator. -/
def joinChar (sep : Char) : List (List Char) → List Char
  | [] => []
  | [w] => w
  | w :: ws => w ++ sep :: joinChar sep ws

/-- `strings.Join(ws, " ")` as used by parseLine's comment reassembly. -/
def unwords (ws : List (List Char)) : List Char := joinChar ' ' ws

/-- Accumulator worker for `splitOnChar`. -/
def splitGo (sep : Char) (cur : List Char) : List Char → List (List Char)
  | [] => [cur.reverse]
  | c :: rest =>
    if c = sep then cur.reverse :: splitGo sep [] rest
    else splitGo sep (c :: cur) rest

/-- `strings.Split` with a one-character separator (never returns `[]`). -/
def splitOnChar (sep : Char) (s : List Char) : List (List Char) := splitGo sep [] s

def trimLeft (s : List Char) : List Char := s.dropWhile isSpaceChar

def trimRight : List Char → List Char
  | [] => []
  | c :: rest =>
    match trimRight rest with
    | [] => if isSpaceChar c then [] else [c]
    | r => c :: r

/-- `strings.TrimSpace` (ASCII). -/
def trimSpace (s : List Char) : List Char := trimLeft (trimRight s)

/-- ASCII `strings.ToLower`. -/
def toLowerChar (c : Char) : Char :=
  if 'A' ≤ c ∧ c ≤ 'Z' then Char.ofNat (c.toNat + 32) else c

/-- `normalizeAddr` (known_hosts.go:120-122): lowercase of the trimmed
address. -/
def normalizeAddr (addr : List Char) : List Char :=
  (trimSpace addr).map toLowerChar

/-! ## Base64 (Go `encoding/base64.StdEncoding`) -/

def b64Alphabet : List Char :=
  "ABCDEFGHIJKLMNOPQRSTUVWXYZabcdefghijklmnopqrstuvwxyz0123456789+/".data

def b64Char (n : Nat) : Char := b64Alphabet.getD n '?'

def b64Val (c : Char) : Option Nat :=
  b64Alphabet.indexOf? c

/-- `base64.StdEncoding.EncodeToString`: three bytes to four characters,
with `=` padding on the final partial group. -/
def encodeBase64 : List Nat → List Char
  | [] => []
  | [b0] => [b64Char (b0 / 4), b64Char (b0 % 4 * 16), '=', '=']
  | [b0, b1] => [b64Char (b0 / 4), b64Char (b0 % 4 * 16 + b1 / 16),
                 b64Char (b1 % 16 * 4), '=']
  | b0 :: b1 :: b2 :: rest =>
    b64Char (b0 / 4) :: b64Char (b0 % 4 * 16 + b1 / 16) ::
    b64Char (b1 % 16 * 4 + b2 / 64) :: b64Char (b2 % 64) :: encodeBase64 rest

/-- `base64.StdEncoding.DecodeString`: four characters to three bytes;
`=` padding only in the final group; invalid characters are an error
(Go's default decoder does not reject non-zero trailing bits). -/
def decodeBase64 : List Char → Option (List Nat)
  | [] => some []
  | c0 :: c1 :: c2 :: c3 :: rest =>
    match b64Val c0, b64Val c1 with
    | some v0, some v1 =>
      if c2 = '=' then
        if c3 = '=' ∧ rest = [] then some [v0 * 4 + v1 / 16] else none
      else
        match b64Val c2 with
        | some v2 =>
          if c3 = '=' then
            if rest = [] then some [v0 * 4 + v1 / 16, v1 % 16 * 16 + v2 / 4]
            else none
          else
            match b64Val c3 with
            | some v3 =>
              (decodeBase64 rest).map
                (fun tail => (v0 * 4 + v1 / 16) :: (v1 % 16 * 16 + v2 / 4) ::
                             (v2 % 4 * 64 + v3) :: tail)
            | none => none
        | none => none
    | _, _ => none
  | _ => none

/-! ## RFC3339 timestamps at one-second granularity

Go stores `time.Time` and serializes with `Format(time.RFC3339)`
(`yyyy-mm-ddThh:mm:ssZ` for UTC; no fractional seconds) and reads back with
`time.Parse(time.RFC3339, …)`.  The model is the civil UTC tuple the
serialization carries. -/

structure Timestamp where
  year : Nat
  month : Nat
  day : Nat
  hour : Nat
  minute : Nat
  second : Nat
deriving DecidableEq

def pad2 (n : Nat) : List Char := [hexDigit (n / 10 % 10), hexDigit (n % 10)]

def pad4 (n : Nat) : List Char :=
  [hexDigit (n / 1000 % 10), hexDigit (n / 100 % 10),
   hexDigit (n / 10 % 10), hexDigit (n % 10)]

def formatTimestamp (t : Timestamp) : List Char :=
  pad4 t.year ++ '-' :: pad2 t.month ++ '-' :: pad2 t.day ++
  'T' :: pad2 t.hour ++ ':' :: pad2 t.minute ++ ':' :: pad2 t.second ++ ['Z']

def digitVal (c : Char) : Option Nat :=
  if '0' ≤ c ∧ c ≤ '9' then some (c.toNat - 48) else none

def digit2 (a b : Char) : Option Nat :=
  match digitVal a, digitVal b with
  | some x, some y => some (10 * x + y)
  | _, _ => none

def digit4 (a b c d : Char) : Option Nat :=
  match digit2 a b, digit2 c d with
  | some x, some y => some (100 * x + y)
  | _, _ => none

def parseTimestamp (cs : List Char) : Option Timestamp :=
  match cs with
  | [y1, y2, y3, y4, p1, o1, o2, p2, a1, a2, pT, h1, h2, p3, i1, i2, p4, s1, s2, pZ] =>
    if p1 = '-' ∧ p2 = '-' ∧ pT = 'T' ∧ p3 = ':' ∧ p4 = ':' ∧ pZ = 'Z' then
      match digit4 y1 y2 y3 y4, digit2 o1 o2, digit2 a1 a2,
            digit2 h1 h2, digit2 i1 i2, digit2 s1 s2 with
      | some y, some mo, some da, some ho, some mi, some se =>
        if 1 ≤ mo ∧ mo ≤ 12 ∧ 1 ≤ da ∧ da ≤ 31 ∧ ho ≤ 23 ∧ mi ≤ 59 ∧ se ≤ 59
        then some ⟨y, mo, da, ho, mi, se⟩ else none
      | _, _, _, _, _, _ => none
    else none
  | _ => none

/-! ## Trust store (crypto/known_hosts.go)

The Go store is `hosts map[string]*KnownHost`: several normalized address
keys may point to one shared `*KnownHost`.  Pointer identity is modelled by
an arena: `arena` is the list of allocated host records in allocation
order, and `hosts` maps each normalized address to an arena index.
`file` is the persisted content as a list of lines. -/

structure KnownHost where
  addresses : List (List Char)
  publicKey : List Nat
  firstSeen : Timestamp
  comment : List Char
deriving DecidableEq

structure KnownHostsState where
  hosts : List (List Char × Nat)
  arena : List KnownHost
  path : List Char
  file : List (List Char)
deriving DecidableEq

def lookupAssoc : List (List Char × Nat) → List Char → Option Nat
  | [], _ => none
  | (k, v) :: rest, h => if k = h then some v else lookupAssoc rest h

/-- Go map assignment `kh.hosts[k] = host`: insert-with-overwrite. -/
def insertHostKey (m : List (List Char × Nat)) (k : List Char) (idx : Nat) :
    List (List Char × Nat) :=
  (k, idx) :: m.filter (fun e => e.1 != k)

/-- `for _, addr := range addrs: kh.hosts[normalizeAddr(addr)] = host`. -/
def insertAliases (addrs : List (List Char)) (idx : Nat)
    (m : List (List Char × Nat)) : List (List Char × Nat) :=
  addrs.foldl (fun acc a => insertHostKey acc (normalizeAddr a) idx) m

/-- `parseLine` (known_hosts.go:77-117). -/
def parseLine (now : Timestamp) (line : List Char) : Option KnownHost :=
  let fs := fields line
  if fs.length < 2 then none
  else
    let addrs := splitOnChar '|' (fs.getD 0 [])
    match decodeBase64 (fs.getD 1 []) with
    | none => none
    | some key =>
      if key.length ≠ 32 then none
      else
        let firstComment :=
          if 3 ≤ fs.length then
            match parseTimestamp (fs.getD 2 []) with
            | some t => (t, ([] : List Char))
            | none => (now, unwords (fs.drop 2))
          else (now, [])
        let comment := if 4 ≤ fs.length then unwords (fs.drop 3) else firstComment.2
        some ⟨addrs, key, firstComment.1, comment⟩

/-- The per-host line written by `saveLocked` (known_hosts.go:202-212). -/
def saveLine (h : KnownHost) : List Char :=
  joinChar '|' h.addresses ++ ' ' :: encodeBase64 h.publicKey ++
  ' ' :: formatTimestamp h.firstSeen ++
  (if h.comment = [] then [] else ' ' :: h.comment)

/-- The full file written by `saveLocked` (known_hosts.go:186-215): two
comment header lines, a blank line, then one line per (pointer-deduplicated)
host record.  Go iterates the map in unspecified order; the model fixes
arena (allocation) order. -/
def saveLines (records : List KnownHost) : List (List Char) :=
  "# Paperclip known hosts".data ::
  "# Format: address(es) public-key-base64 timestamp [comment]".data ::
  [] :: records.map saveLine

/-- The pointer-deduplicated record set of the store, in allocation order:
arena entries still referenced by at least one address key (`saveLocked`'s
`seen map[*KnownHost]bool` walk). -/
def recordsOf (st : KnownHostsState) : List KnownHost :=
  (List.range st.arena.length).filterMap
    (fun i => if st.hosts.any (fun e => e.2 == i) then st.arena[i]? else none)

/-- One line of `LoadKnownHosts`'s scan loop (known_hosts.go:51-70): trim,
skip blank and `#` lines, skip unparsable lines, otherwise allocate the host
and map all its aliases to it. -/
def applyLine (now : Timestamp) (st : KnownHostsState) (line : List Char) :
    KnownHostsState :=
  let t := trimSpace line
  if t = [] then st
  else if t.headD ' ' = '#' then st
  else
    match parseLine now t with
    | none => st
    | some host =>
      { st with arena := st.arena ++ [host],
                hosts := insertAliases host.addresses st.arena.length st.hosts }

/-- `LoadKnownHosts` over the file's lines. -/
def loadStore (now : Timestamp) (path : List Char) (lines : List (List Char)) :
    KnownHostsState :=
  lines.foldl (applyLine now) ⟨[], [], path, lines⟩

def lookupHost (st : KnownHostsState) (addr : List Char) : Option KnownHost :=
  (lookupAssoc st.hosts (normalizeAddr addr)).bind (fun i => st.arena[i]?)

/-- `Add` (known_hosts.go:134-151): allocate `{addresses, key, now}`, map
all aliases to it, persist via `saveLocked`. -/
def addHost (st : KnownHostsState) (addrs : List (List Char)) (key : List Nat)
    (now : Timestamp) : KnownHostsState :=
  let host : KnownHost := ⟨addrs, key, now, []⟩
  let st' : KnownHostsState :=
    ⟨insertAliases addrs st.arena.length st.hosts, st.arena ++ [host], st.path, st.file⟩
  { st' with file := saveLines (recordsOf st') }

inductive VerifyResult where
  | ok : VerifyResult
  /-- `KeyMismatchError` (known_hosts.go:218-223) with its four fields. -/
  | keyMismatch (address : List Char) (expectedKey presentedKey : List Nat)
      (filePath : List Char) : VerifyResult
deriving DecidableEq

/-- `Verify` (known_hosts.go:155-177). -/
def verify (st : KnownHostsState) (addr : List Char) (pubKey : List Nat)
    (now : Timestamp) : VerifyResult × KnownHostsState :=
  match lookupHost st addr with
  | none => (.ok, addHost st [addr] pubKey now)
  | some existing =>
    if existing.publicKey = pubKey then (.ok, st)
    else (.keyMismatch addr existing.publicKey pubKey st.path, st)

example : decodeBase64 (encodeBase64 [1, 2, 3, 250, 251]) = some [1, 2, 3, 250, 251] := by
  decide

example : parseTimestamp (formatTimestamp ⟨2024, 3, 9, 23, 59, 7⟩) =
    some ⟨2024, 3, 9, 23, 59, 7⟩ := by decide

example : fields " a  bc \t d ".data = ["a".data, "bc".data, "d".data] := by decide

example : splitOnChar '|' "a:1|b:2".data = ["a:1".data, "b:2".data] := by decide

example : normalizeAddr " HOST:9 ".data = "host:9".data := by decide

/-! ## Claim C5: Verify trichotomy -/

/-- Claim C5 (confirmed): for every store, address and key, `Verify`
(known_hosts.go:155-177) either (a) finds no record under the normalized
address, inserts `{addresses:[addr], key, first_seen:now}`, persists the
store to its file, and returns OK; or (b) finds a record whose pinned key
equals the presented key and returns OK leaving the store untouched; or
(c) finds a record with a different key and returns a `KeyMismatchError`
carrying the stored key, the presented key, the address, and the store
path, leaving both the in-memory store and the persisted file unchanged —
the pinned key is never auto-updated. -/
theorem trust_verify_trichotomy (st : KnownHostsState) (addr : List Char)
    (key : List Nat) (now : Timestamp) :
    (lookupHost st addr = none →
      (verify st addr key now).1 = .ok
      ∧ lookupHost (verify st addr key now).2 addr =
          some ⟨[addr], key, now, []⟩
      ∧ (verify st addr key now).2.file =
          saveLines (recordsOf (verify st addr key now).2))
    ∧ (∀ h, lookupHost st addr = some h → h.publicKey = key →
        verify st addr key now = (.ok, st))
    ∧ (∀ h, lookupHost st addr = some h → h.publicKey ≠ key →
        verify st addr key now =
          (.keyMismatch addr h.publicKey key st.path, st)) := by
  refine ⟨?_, ?_, ?_⟩
  · intro hnone
    have hv : verify st addr key now = (.ok, addHost st [addr] key now) := by
      simp [verify, hnone]
    refine ⟨by rw [hv], ?_, by rw [hv]; rfl⟩
    rw [hv]
    simp only [addHost, lookupHost, insertAliases, List.foldl_cons, List.foldl_nil,
      insertHostKey, lookupAssoc]
    rw [if_pos trivial, Option.some_bind, List.getElem?_append_right (Nat.le_refl _)]
    simp
  · intro h hsome heq
    simp [verify, hsome, heq]
  · intro h hsome hne
    simp [verify, hsome, hne]

def sampleKeyA : List Nat := List.replicate 32 1

def sampleKeyB : List Nat := List.replicate 32 2

def emptyStore : KnownHostsState := ⟨[], [], "p".data, []⟩

/-- A store pinning `sampleKeyA` for the normalized address "host:9999". -/
def storeWithA : KnownHostsState :=
  ⟨[("host:9999".data, 0)],
   [⟨["Host:9999".data], sampleKeyA, ⟨2024, 1, 1, 0, 0, 0⟩, []⟩],
   "p".data, []⟩

/-- Claim C5 witness: first contact on an empty store pins the key and
returns OK; presenting a different key for a pinned (case-insensitively
matching) address yields the mismatch error with all four fields and leaves
the store unchanged. -/
theorem trust_verify_trichotomy_witness :
    (verify emptyStore "Host:9999".data sampleKeyA ⟨2024, 1, 1, 0, 0, 0⟩).1 = .ok
    ∧ lookupHost (verify emptyStore "Host:9999".data sampleKeyA
        ⟨2024, 1, 1, 0, 0, 0⟩).2 "Host:9999".data =
        some ⟨["Host:9999".data], sampleKeyA, ⟨2024, 1, 1, 0, 0, 0⟩, []⟩
    ∧ verify storeWithA "HOST:9999 ".data sampleKeyB ⟨2025, 2, 2, 0, 0, 0⟩ =
        (.keyMismatch "HOST:9999 ".data sampleKeyA sampleKeyB "p".data,
         storeWithA) := by
  have h1 := (trust_verify_trichotomy emptyStore "Host:9999".data sampleKeyA
    ⟨2024, 1, 1, 0, 0, 0⟩).1 (by decide)
  have h3 := (trust_verify_trichotomy storeWithA "HOST:9999 ".data sampleKeyB
    ⟨2025, 2, 2, 0, 0, 0⟩).2.2
    ⟨["Host:9999".data], sampleKeyA, ⟨2024, 1, 1, 0, 0, 0⟩, []⟩
    (by decide) (by decide)
  exact ⟨h1.1, h1.2.1, h3⟩

/-! ## Claim C9: trust-store persistence round-trip -/

/-- Claim C9 counterexample: a record whose comment contains two
consecutive spaces.  `saveLocked` writes the comment verbatim, but
`parseLine` re-splits the line with `strings.Fields` and rejoins the
comment words with single spaces (known_hosts.go:107,113), so the comment
"x  y" comes back as "x y": save-then-load does NOT preserve the record
set. -/
theorem trust_roundtrip_counterexample :
    recordsOf (loadStore ⟨2000, 1, 1, 0, 0, 0⟩ "p".data
      (saveLines [⟨["a:1".data], List.replicate 32 65,
        ⟨2024, 1, 2, 3, 4, 5⟩, "x  y".data⟩])) =
      [⟨["a:1".data], List.replicate 32 65, ⟨2024, 1, 2, 3, 4, 5⟩, "x y".data⟩]
    ∧ (⟨["a:1".data], List.replicate 32 65, ⟨2024, 1, 2, 3, 4, 5⟩,
        "x y".data⟩ : KnownHost) ≠
      ⟨["a:1".data], List.replicate 32 65, ⟨2024, 1, 2, 3, 4, 5⟩, "x  y".data⟩ := by
  decide

/-! ### Lemmas about `fields`, trimming, joining and splitting -/

/-- A whitespace-free character list. -/
def NoWS (s : List Char) : Prop := ∀ c ∈ s, isSpaceChar c = false

theorem fieldsGo_cons_space (c : Char) (hc : isSpaceChar c = true)
    (cur rest : List Char) :
    fieldsGo cur (c :: rest) =
      if cur = [] then fieldsGo [] rest else cur.reverse :: fieldsGo [] rest := by
  simp only [fieldsGo, hc, if_true]

theorem fieldsGo_cons_nonspace (c : Char) (hc : isSpaceChar c = false)
    (cur rest : List Char) :
    fieldsGo cur (c :: rest) = fieldsGo (c :: cur) rest := by
  simp only [fieldsGo, hc, Bool.false_eq_true, if_false]

theorem fieldsGo_append_word (w : List Char) (hw : NoWS w) :
    ∀ cur s, fieldsGo cur (w ++ s) = fieldsGo (w.reverse ++ cur) s := by
  induction w with
  | nil => intro cur s; simp
  | cons c w ih =>
    intro cur s
    have hc : isSpaceChar c = false := hw c (by simp)
    have hw' : NoWS w := fun x hx => hw x (by simp [hx])
    rw [List.cons_append, fieldsGo_cons_nonspace c hc, ih hw' (c :: cur) s]
    simp [List.append_assoc]

theorem fields_word_append (w s : List Char) (hw : NoWS w) (hne : w ≠ []) :
    fields (w ++ ' ' :: s) = w :: fields s := by
  unfold fields
  rw [fieldsGo_append_word w hw [] (' ' :: s)]
  have hrne : ¬ (w.reverse ++ [] = []) := by simp [hne]
  simp only [fieldsGo, show isSpaceChar ' ' = true from rfl, if_true, hrne, if_false]
  simp

theorem fields_single (w : List Char) (hw : NoWS w) (hne : w ≠ []) :
    fields w = [w] := by
  have h := fieldsGo_append_word w hw [] []
  rw [List.append_nil] at h
  unfold fields
  rw [h]
  have hrne : ¬ (w.reverse ++ [] = []) := by simp [hne]
  simp only [fieldsGo, hrne, if_false]
  simp

theorem trimRight_cons_of_nonspace (c : Char) (s : List Char)
    (hc : isSpaceChar c = false) : trimRight (c :: s) = c :: trimRight s := by
  simp only [trimRight]
  cases trimRight s <;> simp [hc]

theorem fieldsGo_trimRight (s : List Char) :
    ∀ cur, fieldsGo cur (trimRight s) = fieldsGo cur s := by
  induction s with
  | nil => intro cur; rfl
  | cons c s ih =>
    intro cur
    cases hc : isSpaceChar c with
    | true =>
      cases htr : trimRight s with
      | nil =>
        have h0 : fieldsGo ([] : List Char) s = [] := by rw [← ih [], htr]; rfl
        have htr2 : trimRight (c :: s) = [] := by
          simp only [trimRight, htr, hc, if_true]
        rw [htr2, fieldsGo_cons_space c hc, h0]
        by_cases hcur : cur = [] <;> simp [hcur, fieldsGo]
      | cons d r =>
        have h1 : fieldsGo ([] : List Char) (d :: r) = fieldsGo [] s := by
          rw [← htr]; exact ih []
        have htr2 : trimRight (c :: s) = c :: d :: r := by
          simp only [trimRight, htr]
        rw [htr2, fieldsGo_cons_space c hc, fieldsGo_cons_space c hc, h1]
    | false =>
      rw [trimRight_cons_of_nonspace c s hc, fieldsGo_cons_nonspace c hc,
        fieldsGo_cons_nonspace c hc]
      exact ih (c :: cur)

theorem fields_trimLeft (s : List Char) : fields (trimLeft s) = fields s := by
  unfold fields trimLeft
  induction s with
  | nil => rfl
  | cons c s ih =>
    cases hc : isSpaceChar c with
    | true =>
      rw [List.dropWhile_cons]
      simp only [hc, if_true, ih]
      rw [fieldsGo_cons_space c hc]
      simp
    | false =>
      rw [List.dropWhile_cons]
      simp only [hc, Bool.false_eq_true, if_false]

theorem fields_trim (s : List Char) : fields (trimSpace s) = fields s := by
  unfold trimSpace
  rw [fields_trimLeft]
  exact fieldsGo_trimRight s []

theorem trimSpace_cons_of_nonspace (c : Char) (s : List Char)
    (hc : isSpaceChar c = false) : trimSpace (c :: s) = c :: trimRight s := by
  unfold trimSpace
  rw [trimRight_cons_of_nonspace c s hc]
  unfold trimLeft
  rw [List.dropWhile_cons]
  simp [hc]

theorem joinChar_noWS (sep : Char) (hsep : isSpaceChar sep = false)
    (as : List (List Char)) (ha : ∀ a ∈ as, NoWS a) : NoWS (joinChar sep as) := by
  induction as with
  | nil => intro c hc; simp [joinChar] at hc
  | cons a as ih =>
    cases as with
    | nil =>
      intro c hc
      exact ha a (by simp) c (by simpa [joinChar] using hc)
    | cons b bs =>
      intro c hc
      simp only [joinChar, List.mem_append, List.mem_cons] at hc
      rcases hc with hc | hc | hc
      · exact ha a (by simp) c hc
      · subst hc; exact hsep
      · exact ih (fun x hx => ha x (by simp [List.mem_cons] at hx ⊢; tauto)) c hc

theorem joinChar_ne_nil (sep : Char) (as : List (List Char)) (hne : as ≠ [])
    (ha : ∀ a ∈ as, a ≠ []) : joinChar sep as ≠ [] := by
  cases as with
  | nil => exact absurd rfl hne
  | cons a as =>
    cases as with
    | nil => simpa [joinChar] using ha a (by simp)
    | cons b bs =>
      simp only [joinChar]
      cases a <;> simp

theorem splitGo_append_word (sep : Char) (w : List Char) (hw : sep ∉ w) :
    ∀ cur s, splitGo sep cur (w ++ s) = splitGo sep (w.reverse ++ cur) s := by
  induction w with
  | nil => intro cur s; simp
  | cons c w ih =>
    intro cur s
    have hc : ¬ (c = sep) := fun he => hw (by simp [he])
    have hw' : sep ∉ w := fun hx => hw (by simp [hx])
    have hstep : splitGo sep cur (c :: (w ++ s)) = splitGo sep (c :: cur) (w ++ s) := by
      simp only [splitGo, hc, if_false]
    rw [List.cons_append, hstep, ih hw' (c :: cur) s]
    simp [List.append_assoc]

theorem splitOn_join (sep : Char) (as : List (List Char)) (hne : as ≠ [])
    (hsep : ∀ a ∈ as, sep ∉ a) : splitOnChar sep (joinChar sep as) = as := by
  induction as with
  | nil => exact absurd rfl hne
  | cons a as ih =>
    cases as with
    | nil =>
      show splitGo sep [] (joinChar sep [a]) = [a]
      have h := splitGo_append_word sep a (hsep a (by simp)) [] []
      rw [List.append_nil] at h
      simp only [joinChar]
      rw [h]
      simp [splitGo]
    | cons b bs =>
      show splitGo sep [] (joinChar sep (a :: b :: bs)) = a :: b :: bs
      simp only [joinChar]
      rw [splitGo_append_word sep a (hsep a (by simp)) [] (sep :: joinChar sep (b :: bs))]
      simp only [splitGo, if_pos rfl, List.append_nil, List.reverse_reverse]
      have := ih (by simp) (fun x hx => hsep x (by simp [List.mem_cons] at hx ⊢; tauto))
      simpa [splitOnChar, joinChar] using this

/-! ### Base64 and timestamp round-trip lemmas -/

theorem b64Val_b64Char : ∀ n, n < 64 → b64Val (b64Char n) = some n := by decide

theorem b64Char_ne_pad : ∀ n, n < 64 → ¬ (b64Char n = '=') := by decide

theorem b64Char_not_space (n : Nat) : isSpaceChar (b64Char n) = false := by
  by_cases hn : n < 64
  · exact (by decide : ∀ m, m < 64 → isSpaceChar (b64Char m) = false) n hn
  · have hlen : b64Alphabet.length ≤ n := by
      have : b64Alphabet.length = 64 := by decide
      omega
    rw [b64Char, List.getD_eq_default _ _ hlen]
    rfl

theorem decode_encode : ∀ (bs : List Nat), (∀ b ∈ bs, b < 256) →
    decodeBase64 (encodeBase64 bs) = some bs
  | [] => fun _ => rfl
  | [b0] => fun h => by
    have h0 : b0 < 256 := h b0 (by simp)
    have e0 := b64Val_b64Char (b0 / 4) (by omega)
    have e1 := b64Val_b64Char (b0 % 4 * 16) (by omega)
    simp only [encodeBase64, decodeBase64, e0, e1, if_pos rfl, if_true, and_self]
    simp only [Option.some.injEq, List.cons.injEq, and_true]
    omega
  | [b0, b1] => fun h => by
    have h0 : b0 < 256 := h b0 (by simp)
    have h1 : b1 < 256 := h b1 (by simp)
    have e0 := b64Val_b64Char (b0 / 4) (by omega)
    have e1 := b64Val_b64Char (b0 % 4 * 16 + b1 / 16) (by omega)
    have e2 := b64Val_b64Char (b1 % 16 * 4) (by omega)
    have hne2 := b64Char_ne_pad (b1 % 16 * 4) (by omega)
    simp only [encodeBase64, decodeBase64, e0, e1, e2, if_neg hne2, if_pos rfl, if_true, and_self]
    simp only [Option.some.injEq, List.cons.injEq, and_true]
    omega
  | (b0 :: b1 :: b2 :: rest) => fun h => by
    have h0 : b0 < 256 := h b0 (by simp)
    have h1 : b1 < 256 := h b1 (by simp)
    have h2 : b2 < 256 := h b2 (by simp)
    have ih := decode_encode rest (fun b hb => h b (by simp [hb]))
    have e0 := b64Val_b64Char (b0 / 4) (by omega)
    have e1 := b64Val_b64Char (b0 % 4 * 16 + b1 / 16) (by omega)
    have e2 := b64Val_b64Char (b1 % 16 * 4 + b2 / 64) (by omega)
    have e3 := b64Val_b64Char (b2 % 64) (by omega)
    have hne2 := b64Char_ne_pad (b1 % 16 * 4 + b2 / 64) (by omega)
    have hne3 := b64Char_ne_pad (b2 % 64) (by omega)
    simp only [encodeBase64, decodeBase64, e0, e1, e2, e3, if_neg hne2, if_neg hne3, ih,
      Option.map_some']
    simp only [Option.some.injEq, List.cons.injEq, and_true]
    omega

theorem encodeBase64_noWS : ∀ (bs : List Nat), NoWS (encodeBase64 bs)
  | [] => by intro c hc; simp [encodeBase64] at hc
  | [b0] => by
    intro c hc
    simp only [encodeBase64, List.mem_cons, List.not_mem_nil, or_false] at hc
    rcases hc with h | h | h | h <;> subst h
    · exact b64Char_not_space _
    · exact b64Char_not_space _
    · rfl
    · rfl
  | [b0, b1] => by
    intro c hc
    simp only [encodeBase64, List.mem_cons, List.not_mem_nil, or_false] at hc
    rcases hc with h | h | h | h <;> subst h
    · exact b64Char_not_space _
    · exact b64Char_not_space _
    · exact b64Char_not_space _
    · rfl
  | (b0 :: b1 :: b2 :: rest) => by
    intro c hc
    simp only [encodeBase64, List.mem_cons] at hc
    rcases hc with h | h | h | h | h
    · subst h; exact b64Char_not_space _
    · subst h; exact b64Char_not_space _
    · subst h; exact b64Char_not_space _
    · subst h; exact b64Char_not_space _
    · exact encodeBase64_noWS rest c h

theorem encodeBase64_ne_nil (bs : List Nat) (h : bs ≠ []) : encodeBase64 bs ≠ [] := by
  rcases bs with _ | ⟨b0, _ | ⟨b1, _ | ⟨b2, rest⟩⟩⟩ <;> simp [encodeBase64] at h ⊢

/-- Range constraints a Go `time.Time` always satisfies: 4-digit year
(RFC3339's fixed-width year) and calendar-valid civil fields. -/
def GoodTimestamp (t : Timestamp) : Prop :=
  t.year < 10000 ∧ 1 ≤ t.month ∧ t.month ≤ 12 ∧ 1 ≤ t.day ∧ t.day ≤ 31 ∧
  t.hour ≤ 23 ∧ t.minute ≤ 59 ∧ t.second ≤ 59

instance (t : Timestamp) : Decidable (GoodTimestamp t) := by
  unfold GoodTimestamp; infer_instance

theorem digitVal_hexDigit : ∀ n, n < 10 → digitVal (hexDigit n) = some n := by decide

theorem hexDigit_not_space : ∀ n, n < 10 → isSpaceChar (hexDigit n) = false := by
  decide

theorem digit2_pad2 (n : Nat) (h : n < 100) :
    digit2 (hexDigit (n / 10 % 10)) (hexDigit (n % 10)) = some n := by
  have e1 := digitVal_hexDigit (n / 10 % 10) (by omega)
  have e2 := digitVal_hexDigit (n % 10) (by omega)
  simp only [digit2, e1, e2, Option.some.injEq]
  omega

theorem digit4_pad4 (n : Nat) (h : n < 10000) :
    digit4 (hexDigit (n / 1000 % 10)) (hexDigit (n / 100 % 10))
      (hexDigit (n / 10 % 10)) (hexDigit (n % 10)) = some n := by
  have e1 := digitVal_hexDigit (n / 1000 % 10) (by omega)
  have e2 := digitVal_hexDigit (n / 100 % 10) (by omega)
  have e3 := digitVal_hexDigit (n / 10 % 10) (by omega)
  have e4 := digitVal_hexDigit (n % 10) (by omega)
  simp only [digit4, digit2, e1, e2, e3, e4, Option.some.injEq]
  omega

theorem formatTimestamp_eq_list (y mo da ho mi se : Nat) :
    formatTimestamp ⟨y, mo, da, ho, mi, se⟩ =
      [hexDigit (y / 1000 % 10), hexDigit (y / 100 % 10), hexDigit (y / 10 % 10),
       hexDigit (y % 10), '-', hexDigit (mo / 10 % 10), hexDigit (mo % 10), '-',
       hexDigit (da / 10 % 10), hexDigit (da % 10), 'T', hexDigit (ho / 10 % 10),
       hexDigit (ho % 10), ':', hexDigit (mi / 10 % 10), hexDigit (mi % 10), ':',
       hexDigit (se / 10 % 10), hexDigit (se % 10), 'Z'] := by
  simp [formatTimestamp, pad4, pad2]

theorem parseTimestamp_format (t : Timestamp) (hg : GoodTimestamp t) :
    parseTimestamp (formatTimestamp t) = some t := by
  obtain ⟨y, mo, da, ho, mi, se⟩ := t
  dsimp only [GoodTimestamp] at hg
  obtain ⟨hy, hmo1, hmo2, hda1, hda2, hho, hmi, hse⟩ := hg
  rw [formatTimestamp_eq_list]
  simp only [parseTimestamp]
  rw [if_pos (by simp)]
  rw [digit4_pad4 y hy, digit2_pad2 mo (by omega), digit2_pad2 da (by omega),
    digit2_pad2 ho (by omega), digit2_pad2 mi (by omega), digit2_pad2 se (by omega)]
  simp [hmo1, hmo2, hda1, hda2, hho, hmi, hse]

theorem formatTimestamp_noWS (t : Timestamp) : NoWS (formatTimestamp t) := by
  obtain ⟨y, mo, da, ho, mi, se⟩ := t
  intro c hc
  rw [formatTimestamp_eq_list] at hc
  simp only [List.mem_cons, List.not_mem_nil, or_false] at hc
  rcases hc with h|h|h|h|h|h|h|h|h|h|h|h|h|h|h|h|h|h|h|h <;> subst h <;>
    first
    | exact hexDigit_not_space _ (by omega)
    | rfl

theorem formatTimestamp_ne_nil (t : Timestamp) : formatTimestamp t ≠ [] := by
  obtain ⟨y, mo, da, ho, mi, se⟩ := t
  rw [formatTimestamp_eq_list]
  simp

/-! ### Per-line round trip -/

/-- Conditions under which a record survives the line format unchanged:
nonempty pipe-free whitespace-free addresses, a first address not starting
with the comment marker, a 32-byte key, a calendar-valid timestamp, and a
whitespace-normalized comment (single spaces between words — exactly the
shape `strings.Fields` + `strings.Join` can reproduce). -/
def GoodHost (h : KnownHost) : Prop :=
  h.addresses ≠ []
  ∧ (∀ a ∈ h.addresses, a ≠ [] ∧ NoWS a ∧ '|' ∉ a)
  ∧ (h.addresses.headD []).headD ' ' ≠ '#'
  ∧ h.publicKey.length = 32
  ∧ (∀ b ∈ h.publicKey, b < 256)
  ∧ GoodTimestamp h.firstSeen
  ∧ unwords (fields h.comment) = h.comment

instance (s : List Char) : Decidable (NoWS s) := by
  unfold NoWS; infer_instance

instance (h : KnownHost) : Decidable (GoodHost h) := by
  unfold GoodHost; infer_instance

theorem fields_saveLine (h : KnownHost) (hg : GoodHost h) :
    fields (saveLine h) =
      joinChar '|' h.addresses :: encodeBase64 h.publicKey ::
      formatTimestamp h.firstSeen :: fields h.comment := by
  obtain ⟨hane, haddr, hhead, hklen, hkb, hts, hcomm⟩ := hg
  have hA_ws : NoWS (joinChar '|' h.addresses) :=
    joinChar_noWS '|' rfl h.addresses (fun a ha => (haddr a ha).2.1)
  have hA_ne : joinChar '|' h.addresses ≠ [] :=
    joinChar_ne_nil '|' h.addresses hane (fun a ha => (haddr a ha).1)
  have hK_ws : NoWS (encodeBase64 h.publicKey) := encodeBase64_noWS _
  have hK_ne : encodeBase64 h.publicKey ≠ [] := by
    refine encodeBase64_ne_nil _ ?_
    intro hnil
    rw [hnil] at hklen
    simp at hklen
  have hT_ws := formatTimestamp_noWS h.firstSeen
  have hT_ne := formatTimestamp_ne_nil h.firstSeen
  unfold saveLine
  by_cases hc : h.comment = []
  · rw [if_pos hc, List.append_nil]
    simp only [List.cons_append, List.append_assoc]
    rw [fields_word_append _ _ hA_ws hA_ne, fields_word_append _ _ hK_ws hK_ne,
      fields_single _ hT_ws hT_ne, hc]
    rfl
  · rw [if_neg hc]
    simp only [List.cons_append, List.append_assoc]
    rw [fields_word_append _ _ hA_ws hA_ne, fields_word_append _ _ hK_ws hK_ne,
      fields_word_append _ _ hT_ws hT_ne]

theorem parseLine_saveLine (now : Timestamp) (h : KnownHost) (hg : GoodHost h) :
    parseLine now (saveLine h) = some h := by
  have hf := fields_saveLine h hg
  obtain ⟨hane, haddr, hhead, hklen, hkb, hts, hcomm⟩ := hg
  have hsplit : splitOnChar '|' (joinChar '|' h.addresses) = h.addresses :=
    splitOn_join '|' h.addresses hane (fun a ha => (haddr a ha).2.2)
  have hdec : decodeBase64 (encodeBase64 h.publicKey) = some h.publicKey :=
    decode_encode _ hkb
  have hparse := parseTimestamp_format h.firstSeen hts
  cases hfc : fields h.comment with
  | nil =>
    have hcnil : h.comment = [] := by rw [← hcomm, hfc]; rfl
    simp only [parseLine, hf, hfc, List.length_cons, List.length_nil,
      List.getD_cons_zero, List.getD_cons_succ, hsplit, hdec, hparse, hklen]
    norm_num
    rw [← hcnil]
  | cons w ws =>
    simp only [parseLine, hf, hfc, List.length_cons,
      List.getD_cons_zero, List.getD_cons_succ, hsplit, hdec, hparse, hklen]
    have h2 : ¬ (ws.length + 1 + 1 + 1 + 1 < 2) := by omega
    have h3 : 3 ≤ ws.length + 1 + 1 + 1 + 1 := by omega
    have h4 : 4 ≤ ws.length + 1 + 1 + 1 + 1 := by omega
    simp only [h2, h3, h4, if_neg, if_pos, if_false, if_true]
    norm_num
    rw [show (w :: ws) = fields h.comment from hfc.symm, hcomm]

/-! ### Store-level round trip -/

theorem mem_insertHostKey {e : List Char × Nat} {m : List (List Char × Nat)}
    {k : List Char} {idx : Nat} :
    e ∈ insertHostKey m k idx ↔ e = (k, idx) ∨ (e ∈ m ∧ e.1 ≠ k) := by
  simp [insertHostKey, List.mem_filter]

theorem mem_insertAliases_of_mem {addrs : List (List Char)} {idx : Nat}
    {m : List (List Char × Nat)} {e : List Char × Nat} (he : e ∈ m)
    (hfresh : ∀ a ∈ addrs, e.1 ≠ normalizeAddr a) :
    e ∈ insertAliases addrs idx m := by
  induction addrs generalizing m with
  | nil => exact he
  | cons a as ih =>
    show e ∈ insertAliases as idx (insertHostKey m (normalizeAddr a) idx)
    exact ih (mem_insertHostKey.mpr (Or.inr ⟨he, hfresh a (by simp)⟩))
      (fun x hx => hfresh x (by simp [hx]))

theorem mem_insertAliases_cases {addrs : List (List Char)} {idx : Nat}
    {m : List (List Char × Nat)} {e : List Char × Nat}
    (he : e ∈ insertAliases addrs idx m) :
    (e.2 = idx ∧ ∃ a ∈ addrs, e.1 = normalizeAddr a) ∨ e ∈ m := by
  induction addrs generalizing m with
  | nil => exact Or.inr he
  | cons a as ih =>
    rcases ih (m := insertHostKey m (normalizeAddr a) idx) he with h | h
    · obtain ⟨h2, x, hx, he1⟩ := h
      exact Or.inl ⟨h2, x, by simp [hx], he1⟩
    · rcases mem_insertHostKey.mp h with h | h
      · exact Or.inl ⟨by rw [h], a, by simp, by rw [h]⟩
      · exact Or.inr h.1

theorem insertAliases_exists_idx {addrs : List (List Char)} {idx : Nat}
    {m : List (List Char × Nat)} (hne : addrs ≠ []) :
    ∃ e ∈ insertAliases addrs idx m, e.2 = idx := by
  induction addrs generalizing m with
  | nil => exact absurd rfl hne
  | cons a as ih =>
    cases has : as with
    | nil =>
      refine ⟨(normalizeAddr a, idx), ?_, rfl⟩
      show _ ∈ insertAliases [] idx (insertHostKey m (normalizeAddr a) idx)
      simp [insertAliases, insertHostKey]
    | cons b bs =>
      subst has
      exact ih (by simp)

theorem recordsOf_snoc (hosts : List (List Char × Nat)) (arena : List KnownHost)
    (p : List Char) (f : List (List Char)) (h : KnownHost)
    (addrs : List (List Char)) (hne : addrs ≠ [])
    (hfresh : ∀ e ∈ hosts, ∀ a ∈ addrs, e.1 ≠ normalizeAddr a) :
    recordsOf ⟨insertAliases addrs arena.length hosts, arena ++ [h], p, f⟩ =
      recordsOf ⟨hosts, arena, p, f⟩ ++ [h] := by
  unfold recordsOf
  dsimp only
  have hL : (arena ++ [h]).length = arena.length + 1 := by simp
  rw [hL, List.range_succ, List.filterMap_append]
  congr 1
  · apply List.filterMap_congr
    intro i hi
    have hilt : i < arena.length := List.mem_range.mp hi
    have hany : ((insertAliases addrs arena.length hosts).any (fun e => e.2 == i)) =
        (hosts.any (fun e => e.2 == i)) := by
      cases hh : hosts.any (fun e => e.2 == i) with
      | true =>
        obtain ⟨e, he, hei⟩ := List.any_eq_true.mp hh
        exact List.any_eq_true.mpr
          ⟨e, mem_insertAliases_of_mem he (fun a ha => hfresh e he a ha), hei⟩
      | false =>
        cases hh2 : (insertAliases addrs arena.length hosts).any (fun e => e.2 == i) with
        | false => rfl
        | true =>
          exfalso
          obtain ⟨e, he, hei⟩ := List.any_eq_true.mp hh2
          have hei' : e.2 = i := by simpa using hei
          rcases mem_insertAliases_cases he with ⟨h2, -⟩ | hmem
          · omega
          · have hcontra : hosts.any (fun e => e.2 == i) = true :=
              List.any_eq_true.mpr ⟨e, hmem, hei⟩
            rw [hh] at hcontra
            exact absurd hcontra (by simp)
    rw [hany, List.getElem?_append_left hilt]
  · have hany : ((insertAliases addrs arena.length hosts).any
        (fun e => e.2 == arena.length)) = true := by
      obtain ⟨e, he, hei⟩ := @insertAliases_exists_idx addrs arena.length hosts hne
      exact List.any_eq_true.mpr ⟨e, he, by simp [hei]⟩
    simp only [List.filterMap_cons, List.filterMap_nil, hany, if_true]
    rw [List.getElem?_append_right (Nat.le_refl _)]
    simp

theorem parseLine_fields_congr (now : Timestamp) {l1 l2 : List Char}
    (he : fields l1 = fields l2) : parseLine now l1 = parseLine now l2 := by
  unfold parseLine
  rw [he]

theorem applyLine_saveLine (now : Timestamp) (st : KnownHostsState) (h : KnownHost)
    (hg : GoodHost h) :
    applyLine now st (saveLine h) =
      ⟨insertAliases h.addresses st.arena.length st.hosts, st.arena ++ [h],
       st.path, st.file⟩ := by
  have hps := parseLine_saveLine now h hg
  obtain ⟨hane, haddr, hhead, -, -, -, -⟩ := hg
  obtain ⟨a0, rest, hrw⟩ : ∃ a0 rest, h.addresses = a0 :: rest := by
    cases hA : h.addresses with
    | nil => exact absurd hA hane
    | cons x xs => exact ⟨x, xs, rfl⟩
  have ha0 := haddr a0 (by rw [hrw]; simp)
  obtain ⟨c0, a0t, hc0⟩ : ∃ c0 a0t, a0 = c0 :: a0t := by
    cases hA : a0 with
    | nil => exact absurd hA ha0.1
    | cons x xs => exact ⟨x, xs, rfl⟩
  have hc0ws : isSpaceChar c0 = false := ha0.2.1 c0 (by rw [hc0]; simp)
  have hc0hash : c0 ≠ '#' := by
    rw [hrw] at hhead
    simp only [List.headD_cons] at hhead
    rw [hc0] at hhead
    simpa using hhead
  obtain ⟨t, ht⟩ : ∃ t, joinChar '|' h.addresses = a0 ++ t := by
    rw [hrw]
    cases rest with
    | nil => exact ⟨[], by simp [joinChar]⟩
    | cons b bs => exact ⟨'|' :: joinChar '|' (b :: bs), rfl⟩
  obtain ⟨tail, htail⟩ : ∃ tail, saveLine h = c0 :: tail := by
    refine ⟨a0t ++ (t ++ ((' ' :: encodeBase64 h.publicKey) ++
      ((' ' :: formatTimestamp h.firstSeen) ++
        (if h.comment = [] then [] else ' ' :: h.comment)))), ?_⟩
    unfold saveLine
    rw [ht, hc0]
    simp [List.cons_append, List.append_assoc]
  unfold applyLine
  rw [htail, trimSpace_cons_of_nonspace c0 tail hc0ws]
  rw [if_neg (by simp)]
  rw [if_neg (by simpa using hc0hash)]
  have hpl : parseLine now (c0 :: trimRight tail) = some h := by
    have hfe : fields (c0 :: trimRight tail) = fields (saveLine h) := by
      rw [htail, ← trimSpace_cons_of_nonspace c0 tail hc0ws, fields_trim]
    rw [parseLine_fields_congr now hfe]
    exact hps
  rw [hpl]

theorem loadStore_fold (now : Timestamp) (rs : List KnownHost) :
    ∀ (st : KnownHostsState),
    (∀ h ∈ rs, GoodHost h) →
    (∀ h ∈ rs, ∀ a ∈ h.addresses, ∀ e ∈ st.hosts, e.1 ≠ normalizeAddr a) →
    List.Pairwise (fun h1 h2 => ∀ a ∈ h1.addresses, ∀ b ∈ h2.addresses,
      normalizeAddr a ≠ normalizeAddr b) rs →
    recordsOf (List.foldl (applyLine now) st (rs.map saveLine)) = recordsOf st ++ rs := by
  induction rs with
  | nil => intro st _ _ _; simp
  | cons h rs ih =>
    intro st hg hfresh hpw
    rw [List.map_cons, List.foldl_cons, applyLine_saveLine now st h (hg h (by simp))]
    have hrec : recordsOf ⟨insertAliases h.addresses st.arena.length st.hosts,
        st.arena ++ [h], st.path, st.file⟩ = recordsOf st ++ [h] := by
      have := recordsOf_snoc st.hosts st.arena st.path st.file h h.addresses
        (hg h (by simp)).1
        (fun e he a ha => hfresh h (by simp) a ha e he)
      rw [this]
    have hnext := ih ⟨insertAliases h.addresses st.arena.length st.hosts,
        st.arena ++ [h], st.path, st.file⟩
      (fun x hx => hg x (by simp [hx]))
      ?_ (List.pairwise_cons.mp hpw).2
    · rw [hnext, hrec]
      simp
    · intro h2 hh2 a2 ha2 e he
      rcases mem_insertAliases_cases he with ⟨hidx, x, hx, hex⟩ | hmem
      · rw [hex]
        exact (List.pairwise_cons.mp hpw).1 h2 hh2 x hx a2 ha2
      · exact hfresh h2 (by simp [hh2]) a2 ha2 e hmem

/-- Claim C9 (amended): for every list of trusted-host records whose
addresses are nonempty, pipe-free and whitespace-free, whose first address
does not begin with `#`, whose keys are 32 bytes, whose timestamps are
calendar-valid with 4-digit years, whose comments are whitespace-normalized
(words separated by single spaces), and whose normalized address aliases are
pairwise disjoint across records — saving the store and loading the file
back yields exactly the same records (same aliases, key, timestamp and
comment). -/
theorem trust_store_roundtrip (now : Timestamp) (path : List Char)
    (rs : List KnownHost) (hg : ∀ h ∈ rs, GoodHost h)
    (hdisj : List.Pairwise (fun h1 h2 => ∀ a ∈ h1.addresses, ∀ b ∈ h2.addresses,
      normalizeAddr a ≠ normalizeAddr b) rs) :
    recordsOf (loadStore now path (saveLines rs)) = rs := by
  unfold loadStore saveLines
  rw [List.foldl_cons, List.foldl_cons, List.foldl_cons]
  have h1 : applyLine now ⟨[], [], path,
      "# Paperclip known hosts".data ::
      "# Format: address(es) public-key-base64 timestamp [comment]".data ::
      [] :: rs.map saveLine⟩ "# Paperclip known hosts".data =
      ⟨[], [], path, "# Paperclip known hosts".data ::
      "# Format: address(es) public-key-base64 timestamp [comment]".data ::
      [] :: rs.map saveLine⟩ := rfl
  rw [h1]
  have h2 : applyLine now ⟨[], [], path,
      "# Paperclip known hosts".data ::
      "# Format: address(es) public-key-base64 timestamp [comment]".data ::
      [] :: rs.map saveLine⟩
      "# Format: address(es) public-key-base64 timestamp [comment]".data =
      ⟨[], [], path, "# Paperclip known hosts".data ::
      "# Format: address(es) public-key-base64 timestamp [comment]".data ::
      [] :: rs.map saveLine⟩ := rfl
  rw [h2]
  have h3 : applyLine now ⟨[], [], path,
      "# Paperclip known hosts".data ::
      "# Format: address(es) public-key-base64 timestamp [comment]".data ::
      [] :: rs.map saveLine⟩ [] =
      ⟨[], [], path, "# Paperclip known hosts".data ::
      "# Format: address(es) public-key-base64 timestamp [comment]".data ::
      [] :: rs.map saveLine⟩ := rfl
  rw [h3]
  rw [loadStore_fold now rs _ hg (by intro h hh a ha e he; simp at he) hdisj]
  rfl

def hostSampleA : KnownHost :=
  ⟨["lan:9999".data, "wan:9999".data], List.replicate 32 7,
   ⟨2024, 6, 1, 12, 30, 59⟩, "team box".data⟩

def hostSampleB : KnownHost :=
  ⟨["c:3".data], List.replicate 32 9, ⟨2025, 12, 31, 23, 59, 59⟩, []⟩

/-- Claim C9 witness: a two-record store (one multi-alias commented record,
one bare record) survives the save/load round trip unchanged. -/
theorem trust_store_roundtrip_witness :
    recordsOf (loadStore ⟨2020, 1, 1, 0, 0, 0⟩ "p".data
      (saveLines [hostSampleA, hostSampleB])) = [hostSampleA, hostSampleB] :=
  trust_store_roundtrip ⟨2020, 1, 1, 0, 0, 0⟩ "p".data [hostSampleA, hostSampleB]
    (by decide) (by decide)

end Paperclip
